import Mathlib

/-!
Shallow embedding of the road-splitting core of the TAZ_for_LCZ repository
(`src/split_LCZ.py` and `src/construct_qgis_functions.py`).

Layers are modelled as ordered sequences of features carrying integer
attributes; the QGIS feature store's iteration order is the list order.
The pure decision logic (edge exclusion, remaining-road selection,
exclusion-set union, reindexing, shapefile renaming) is translated
function by function from the Python source.
-/

deriving instance DecidableEq for Except

/-- A vector feature: the store-assigned feature id (`f.id()` in QGIS)
plus its attribute values.  The core logic only ever reads integer
attributes, so attribute values are modelled as `Int`. -/
structure Feature where
  fid : Int
  attrs : List Int
deriving Repr, DecidableEq

/-- A vector layer: validity flag, attribute schema (field names in order),
and the ordered sequence of features as produced by `getFeatures()`. -/
structure VectorLayer where
  valid : Bool
  fields : List String
  feats : List Feature
deriving Repr, DecidableEq

/-- `fields().indexOf(name)` of QGIS, as an `Option Nat`
(`none` models the `-1` "not found" return). -/
def field_index : List String → String → Option Nat
  | [], _ => none
  | f :: rest, name => if f = name then some 0 else (field_index rest name).map (· + 1)

/-- The attribute sequence `[feature.attributes()[idx] for feature in layer.getFeatures()]`
read by the scan loops, in feature iteration order. -/
def layerFids (layer : VectorLayer) (idx : Nat) : List Int :=
  layer.feats.map (fun f => f.attrs.getD idx 0)

/-- The `exclude_edges` scan loop for `edge_type == "bial"`
(`split_LCZ.py` lines 187-201 with `compare_operator == False`):
append `fid` whenever `last_fid == fid`.  The accumulator holds the
Python list reversed (head = most recently appended element). -/
def scanBial : Int → List Int → List Int → List Int
  | _, stack, [] => stack.reverse
  | last, stack, fid :: rest =>
    scanBial fid (if last = fid then fid :: stack else stack) rest

/-- The `exclude_edges` scan loop for `edge_type == "single"`
(`split_LCZ.py` lines 187-201 with `compare_operator == True`):
push when `last_fid == 0`, pop when `last_fid == fid`, push otherwise.
`stack.pop()` on an empty Python list raises `IndexError`, modelled by
`Except.error`.  The accumulator holds the Python list reversed
(head = top of stack); the base case restores Python list order. -/
def scanSingle : Int → List Int → List Int → Except String (List Int)
  | _, stack, [] => .ok stack.reverse
  | last, stack, fid :: rest =>
    if last = 0 then
      scanSingle fid (fid :: stack) rest
    else if last = fid then
      match stack with
      | [] => .error "IndexError: pop from empty list"
      | _ :: s => scanSingle fid s rest
    else
      scanSingle fid (fid :: stack) rest

/-- `exclude_edges` (`split_LCZ.py` lines 173-201).  Returns the list of
emitted log messages together with the Python return value:
`Except.error` models an uncaught exception, `.ok none` models `return None`
(invalid `edge_type`), `.ok (some l)` models returning the list `l`
(including the `return []` of the missing-field branch). -/
def exclude_edges (layer : VectorLayer) (edge_type : String) (field_name : String) :
    List String × Except String (Option (List Int)) :=
  if edge_type ≠ "bial" ∧ edge_type ≠ "single" then
    (["invalid operator signal"], .ok none)
  else
    match field_index layer.fields field_name with
    | none => (["field " ++ field_name ++ " not found"], .ok (some []))
    | some fid_index =>
      let fids := layerFids layer fid_index
      if edge_type = "bial" then
        ([], .ok (some (scanBial 0 [] fids)))
      else
        ([], (scanSingle 0 [] fids).map some)

/-- A layer carrying a single integer field `"FID"` whose attribute
sequence in iteration order is exactly `fids` (the shape the exclusion
scans read after `mess_up_splited_feature` stamped the positional FID). -/
def fidLayer (fids : List Int) : VectorLayer :=
  ⟨true, ["FID"], fids.map (fun v => ⟨v, [v]⟩)⟩

/-- The merge-scan loop of `calc_remained_road`
(`split_LCZ.py` lines 210-222), recursing over the layer's FID sequence
with the `scan_index` cursor into `exclude_list`.  `exclude_list[scan_index]`
is modelled by `getD` (the saturation logic keeps the index in bounds
whenever `exclude_list` is non-empty, which is the only case reaching
this loop). -/
def remainScan (exclude_list : List Int) : List Int → Nat → List Int
  | [], _ => []
  | current_fid :: rest, scan_index =>
    if current_fid < exclude_list.getD scan_index 0 then
      current_fid :: remainScan exclude_list rest scan_index
    else if current_fid = exclude_list.getD scan_index 0 then
      let s1 := scan_index + 1
      let s2 := if s1 = exclude_list.length then s1 - 1 else s1
      remainScan exclude_list rest s2
    else
      current_fid :: remainScan exclude_list rest scan_index

/-- Observable outcome of `calc_remained_road`: the returned path, whether
the empty-exclusion warning was logged, the `remained_list` computed by the
selection scan (`none` when the scan never ran), and whether the
materialize/export step was reached. -/
structure SelectorOutcome where
  ret : String
  warned : Bool
  selected : Option (List Int)
  exported : Bool
deriving Repr, DecidableEq

/-- `calc_remained_road` (`split_LCZ.py` lines 203-244).  `fids` is the
layer's `"FID"` attribute sequence in iteration order; `write_ok` models
success of the external `writeAsVectorFormatV3` call and `output_path`
the path computed by `generate_save_path(path, "selected")`. -/
def calc_remained_road (splited_with_feature_path : String) (fids : List Int)
    (exclude_list : List Int) (write_ok : Bool) (output_path : String) : SelectorOutcome :=
  if exclude_list.length = 0 then
    { ret := splited_with_feature_path, warned := true, selected := none, exported := false }
  else
    let remained_list := remainScan exclude_list fids 0
    if write_ok then
      { ret := output_path, warned := false, selected := some remained_list, exported := true }
    else
      { ret := "", warned := false, selected := some remained_list, exported := true }

/-- The FID sequence surviving a `calc_remained_road` call: the selected
list when the scan ran, the whole input sequence when the function
short-circuited and returned the input layer unchanged. -/
def keptFids (fids : List Int) (o : SelectorOutcome) : List Int :=
  o.selected.getD fids

/-- `sorted(list(set(bial_out) | set(single_out)))` of
`split_LCZ.py` line 261: the sorted duplicate-free union of the two
rule outputs. -/
def exclude_union (bial_out single_out : List Int) : List Int :=
  List.insertionSort (fun a b => a ≤ b) ((bial_out ++ single_out).dedup)

/-- The exclusion-list construction of `post_process_road`
(`split_LCZ.py` line 261) over the two already-loaded layers:
`set(...)` applied to a `None` return raises `TypeError`, and an
exception from either `exclude_edges` call propagates. -/
def post_process_exclude_list (point_intersection endpoint : VectorLayer) :
    Except String (List Int) :=
  match (exclude_edges point_intersection "bial" "FID").2,
        (exclude_edges endpoint "single" "FID").2 with
  | .ok (some b), .ok (some s) => .ok (exclude_union b s)
  | .ok none, _ => .error "TypeError: NoneType is not iterable"
  | _, .ok none => .error "TypeError: NoneType is not iterable"
  | .error e, _ => .error e
  | _, .error e => .error e

/-- The `changeAttributeValues` bulk write of `reindex_feature`: look the
field up and set every feature's value at that index to its own feature
id (an index lookup that fails leaves the layer unchanged, matching the
silent failure of `changeAttributeValues` on an invalid index). -/
def reindex_apply (layer1 : VectorLayer) (field_name : String) : VectorLayer :=
  match field_index layer1.fields field_name with
  | none => layer1
  | some idx =>
    { layer1 with
      feats := layer1.feats.map (fun f => { f with attrs := f.attrs.set idx f.fid }) }

/-- `reindex_feature` (`construct_qgis_functions.py` lines 47-67):
on an invalid layer, return the sentinel (`none`) and change nothing;
otherwise ensure the integer field exists (new attribute slots start out
null, modelled as `0`) and bulk-write `monoid := feature id` for every
feature via `changeAttributeValues`. -/
def reindex_feature (layer : VectorLayer) (field_name : String) : Option VectorLayer :=
  if layer.valid = false then none
  else
    some (reindex_apply
      (if field_name ∈ layer.fields then layer
       else { layer with
              fields := layer.fields ++ [field_name]
              feats := layer.feats.map (fun f => { f with attrs := f.attrs ++ [0] }) })
      field_name)

/-- `split_lines` (`construct_qgis_functions.py` lines 159-181).
`splitResult` is the outcome of the external `native:splitwithlines`
call: `none` when the service fails (the function then returns the
empty-path sentinel and touches nothing), `some l` the produced layer,
which is then reindexed with `monoid := feature id` in the same load
session.  The second component is the resulting on-disk layer state. -/
def split_lines (splitResult : Option VectorLayer) (splited_road_path : String) :
    String × Option VectorLayer :=
  match splitResult with
  | none => ("", none)
  | some out_layer =>
    (splited_road_path, some ((reindex_feature out_layer "monoid").getD out_layer))

/-- Read a named attribute of a feature through a layer's schema. -/
def getAttr (layer : VectorLayer) (f : Feature) (name : String) : Option Int :=
  (field_index layer.fields name).bind (fun i => f.attrs[i]?)

/-- Characters up to (excluding) the first `'.'`, i.e. `split('.')[0]`. -/
def takeUntilDot : List Char → List Char
  | [] => []
  | c :: rest => if c = '.' then [] else c :: takeUntilDot rest

/-- Characters up to (excluding) the first `'/'`. -/
def takeUntilSlash : List Char → List Char
  | [] => []
  | c :: rest => if c = '/' then [] else c :: takeUntilSlash rest

/-- `os.path.basename`: the part of the path after the last `'/'`. -/
def baseName (p : String) : String :=
  ⟨(takeUntilSlash p.data.reverse).reverse⟩

/-- `os.path.basename(path).split('.')[0]` as used by `rename_shapefile`. -/
def shp_base_name (shp_path : String) : String :=
  ⟨takeUntilDot (baseName shp_path).data⟩

/-- `String.startsWith`, computed on the underlying character lists. -/
def isPrefixList : List Char → List Char → Bool
  | [], _ => true
  | _ :: _, [] => false
  | a :: as, b :: bs => a = b && isPrefixList as bs

/-- Python's `file.startswith(pat)`. -/
def startsWithStr (s pat : String) : Bool :=
  isPrefixList pat.data s.data

/-- POSIX `os.rename` on a directory listing: the source entry disappears,
the destination entry is (over)written. -/
def os_rename (dir : List String) (old new : String) : List String :=
  ((dir.erase old).filter (fun f => f != new)) ++ [new]

/-- `rename_shapefile` (`construct_qgis_functions.py` lines 17-23):
`new_name = new_name + '.'`, then every file of the snapshot listing
whose name starts with `base + '.'` is renamed to that same `new_name`. -/
def rename_shapefile (dir : List String) (shp_path : String) (new_name : String) :
    List String :=
  let shp_name := shp_base_name shp_path ++ "."
  let nn := new_name ++ "."
  (dir.filter (fun f => startsWithStr f shp_name)).foldl (fun d f => os_rename d f nn) dir

/-- The FID sequence `0, 1, ..., N-1` that `mess_up_splited_feature`
stamps onto the split layer. -/
def intRange (N : Nat) : List Int :=
  (List.range N).map (fun n : Nat => (n : Int))

/-! ### Specification-side definitions (for refinement comparisons) -/

/-- One step of the stack machine described by the spec for rule "single":
if `last_fid == 0` push the current FID, else if `last_fid` equals the
current FID pop, else push; `none` when a pop hits an empty stack. -/
def spec_single_step (last_fid fid : Int) (stack : List Int) : Option (List Int) :=
  if last_fid = 0 then some (stack ++ [fid])
  else if last_fid = fid then
    if stack = [] then none else some stack.dropLast
  else some (stack ++ [fid])

/-- The spec's rule-"single" stack machine run over an ordered FID sequence,
updating `last_fid` each iteration and returning what remains on the stack. -/
def spec_single_run : Int → List Int → List Int → Option (List Int)
  | _, stack, [] => some stack
  | last, stack, fid :: rest =>
    match spec_single_step last fid stack with
    | none => none
    | some st => spec_single_run fid st rest

/-- Bridge from the spec machine's partial result to the Python-side
behaviour: a failed pop is an uncaught `IndexError`. -/
def toExceptScan : Option (List Int) → Except String (List Int)
  | some s => .ok s
  | none => .error "IndexError: pop from empty list"

/-- Rule-"bial" output characterized positionally with the code's sentinel:
the FIDs of the rows whose FID equals the tracked previous FID, where the
first row is compared against the sentinel `0`. -/
def bial_pairs (fids : List Int) : List Int :=
  (fids.zip (0 :: fids)).filterMap (fun p => if p.1 = p.2 then some p.1 else none)

/-- Rule "bial" as the claim words it: a FID is recorded exactly when it
equals the FID of an actually existing immediately preceding row. -/
def bial_pairs_strict (fids : List Int) : List Int :=
  match fids with
  | [] => []
  | f :: rest => (rest.zip (f :: rest)).filterMap (fun p => if p.1 = p.2 then some p.1 else none)

/-- No FID occurs three times consecutively (every maximal run of equal
FIDs has length at most two). -/
def noTripleRun : List Int → Bool
  | a :: b :: c :: rest => !(a == b && b == c) && noTripleRun (b :: c :: rest)
  | _ => true

/-! ### Helper lemmas -/

lemma layerFids_fidLayer (fids : List Int) : layerFids (fidLayer fids) 0 = fids := by
  simp [layerFids, fidLayer, List.map_map, Function.comp_def]

lemma exclude_edges_single_fidLayer (fids : List Int) :
    (exclude_edges (fidLayer fids) "single" "FID").2 = (scanSingle 0 [] fids).map some := by
  have h : (exclude_edges (fidLayer fids) "single" "FID").2
      = (scanSingle 0 [] (layerFids (fidLayer fids) 0)).map some := rfl
  rw [h, layerFids_fidLayer]

lemma exclude_edges_bial_fidLayer (fids : List Int) :
    (exclude_edges (fidLayer fids) "bial" "FID").2 = .ok (some (scanBial 0 [] fids)) := by
  have h : (exclude_edges (fidLayer fids) "bial" "FID").2
      = .ok (some (scanBial 0 [] (layerFids (fidLayer fids) 0))) := rfl
  rw [h, layerFids_fidLayer]

lemma field_index_eq_none (name : String) :
    ∀ l : List String, name ∉ l → field_index l name = none := by
  intro l
  induction l with
  | nil => intro _; rfl
  | cons f rest ih =>
    intro h
    have h1 : ¬(f = name) := fun e => h (e ▸ List.mem_cons_self f rest)
    have h2 : name ∉ rest := fun m => h (List.mem_cons_of_mem f m)
    simp [field_index, h1, ih h2]

lemma scanBial_append (l : List Int) : ∀ (last : Int) (acc : List Int),
    scanBial last acc l = acc.reverse ++
      (l.zip (last :: l)).filterMap (fun p => if p.1 = p.2 then some p.1 else none) := by
  induction l with
  | nil => intro last acc; simp [scanBial]
  | cons f rest ih =>
    intro last acc
    rw [show scanBial last acc (f :: rest)
        = scanBial f (if last = f then f :: acc else acc) rest from rfl]
    rw [ih]
    by_cases h : last = f
    · subst h
      simp [List.filterMap_cons, List.append_assoc]
    · have h' : ¬(f = last) := fun e => h e.symm
      simp [h, h', List.filterMap_cons]

lemma scanSingle_spec (l : List Int) : ∀ (last : Int) (stack : List Int),
    scanSingle last stack l = toExceptScan (spec_single_run last stack.reverse l) := by
  induction l with
  | nil => intro last stack; rfl
  | cons fid rest ih =>
    intro last stack
    by_cases h0 : last = 0
    · rw [show scanSingle last stack (fid :: rest) = scanSingle fid (fid :: stack) rest
          from by simp [scanSingle, h0]]
      rw [show spec_single_run last stack.reverse (fid :: rest)
          = spec_single_run fid (stack.reverse ++ [fid]) rest
          from by simp [spec_single_run, spec_single_step, h0]]
      rw [ih, List.reverse_cons]
    · by_cases hf : last = fid
      · subst hf
        cases stack with
        | nil =>
          rw [show scanSingle last [] (last :: rest)
              = Except.error "IndexError: pop from empty list"
              from by simp [scanSingle, h0]]
          rw [show spec_single_run last ([] : List Int).reverse (last :: rest) = none
              from by simp [spec_single_run, spec_single_step, h0]]
          rfl
        | cons x s =>
          rw [show scanSingle last (x :: s) (last :: rest) = scanSingle last s rest
              from by simp [scanSingle, h0]]
          rw [show spec_single_run last (x :: s).reverse (last :: rest)
              = spec_single_run last ((x :: s).reverse.dropLast) rest
              from by simp [spec_single_run, spec_single_step, h0]]
          rw [ih, List.reverse_cons, List.dropLast_concat]
      · rw [show scanSingle last stack (fid :: rest) = scanSingle fid (fid :: stack) rest
            from by simp [scanSingle, h0, hf]]
        rw [show spec_single_run last stack.reverse (fid :: rest)
            = spec_single_run fid (stack.reverse ++ [fid]) rest
            from by simp [spec_single_run, spec_single_step, h0, hf]]
        rw [ih, List.reverse_cons]

/-! ### Claim theorems -/

/-- C1: for every ordered FID sequence, `exclude_edges` with edge type
`"single"` implements the spec's stack machine (`last_fid` starts at the
sentinel 0; push when `last_fid == 0`, pop when `last_fid` equals the
current FID, push otherwise, updating `last_fid` each iteration) and
returns what remains on the stack; on `[1,1,2,3,3,4]` the result is
`[2,4]`. -/
theorem single_rule_implements_spec_stack_machine :
    (∀ fids : List Int,
       (exclude_edges (fidLayer fids) "single" "FID").2
         = (toExceptScan (spec_single_run 0 [] fids)).map some)
    ∧ (exclude_edges (fidLayer [1,1,2,3,3,4]) "single" "FID").2 = .ok (some [2,4]) := by
  constructor
  · intro fids
    rw [exclude_edges_single_fidLayer, scanSingle_spec]
    rfl
  · decide

/-- C2 counterexample: on the one-row FID sequence `[0]`, rule "bial"
records FID 0 as excluded although no row has an immediately preceding
row of equal FID, so the claimed characterization fails on the code. -/
theorem bial_rule_strict_characterization_fails :
    (exclude_edges (fidLayer [0]) "bial" "FID").2 ≠ .ok (some (bial_pairs_strict [0]))
    ∧ (exclude_edges (fidLayer [0]) "bial" "FID").2 = .ok (some [0]) := by
  constructor
  · decide
  · decide

/-- C2 amended: rule "bial" records a FID as excluded exactly when the
current row's FID equals the tracked previous FID, which is the
immediately preceding row's FID for every row after the first and the
sentinel 0 for the first row (so a first row with FID 0 is also
recorded); the excluded set (before union) for `[3,3,5,7,7,7]` is
`{3,7}`, the triple repeat yielding 7 only once. -/
theorem bial_rule_sentinel_characterization :
    (∀ fids : List Int,
       (exclude_edges (fidLayer fids) "bial" "FID").2 = .ok (some (bial_pairs fids)))
    ∧ (bial_pairs [3,3,5,7,7,7]).dedup = [3,7] := by
  constructor
  · intro fids
    rw [exclude_edges_bial_fidLayer, scanBial_append]
    rfl
  · decide

/-- C5: `calc_remained_road` called with an empty exclusion list logs a
warning and returns the input layer path unchanged; the selection scan
and the materialize/export step never run. -/
theorem calc_remained_road_empty_exclusion_identity :
    ∀ (path out : String) (fids : List Int) (w : Bool),
      calc_remained_road path fids [] w out
        = { ret := path, warned := true, selected := none, exported := false } := by
  intro path out fids w
  rfl

/-- C9: in rule "single" the `last_fid == 0` push branch takes priority
over the cancel branch, so a row whose tracked predecessor FID is 0 is
always pushed and never popped; on the FID sequence `[0,0]` the result
is the stack `[0,0]`, not the empty stack that balanced-pair
cancellation would give for a non-zero pair. -/
theorem single_rule_sentinel_zero_always_pushes :
    (∀ (fid : Int) (stack rest : List Int),
       scanSingle 0 stack (fid :: rest) = scanSingle fid (fid :: stack) rest)
    ∧ (exclude_edges (fidLayer [0,0]) "single" "FID").2 = .ok (some [0,0]) := by
  constructor
  · intro fid stack rest
    simp [scanSingle]
  · decide

/-- C8 (code-bug witness): `rename_shapefile` renames every sidecar file
of the group to the same extensionless name `new_name ++ "."`, each
rename overwriting the previous one, so a three-file layer collapses to
a single file instead of a consistent renamed layer. -/
theorem rename_shapefile_collapses_sidecars :
    rename_shapefile ["result1.shp", "result1.dbf", "result1.shx"] "/tmp/result1.shp"
      "boundary" = ["boundary."] := by
  decide

/-- C6: an edge type that is neither `"bial"` nor `"single"` makes
`exclude_edges` log an error and return `None` without reading any
feature of the layer, and a missing FID field makes it log an error and
return the empty sequence. -/
theorem exclude_edges_validation_failures :
    (∀ (layer : VectorLayer) (et fn : String), et ≠ "bial" → et ≠ "single" →
       exclude_edges layer et fn = (["invalid operator signal"], .ok none))
    ∧ (∀ (layer : VectorLayer) (et fn : String), et = "bial" ∨ et = "single" →
       fn ∉ layer.fields →
       exclude_edges layer et fn = (["field " ++ fn ++ " not found"], .ok (some []))) := by
  constructor
  · intro layer et fn h1 h2
    simp [exclude_edges, h1, h2]
  · intro layer et fn het hfn
    rcases het with h | h <;>
      simp [exclude_edges, h, field_index_eq_none fn layer.fields hfn]

/-- C6 witness at concrete inputs: the misspelled tag "biall" and a
lookup of the absent field "monoid". -/
theorem exclude_edges_validation_failures_witness :
    exclude_edges (fidLayer [1,2]) "biall" "FID" = (["invalid operator signal"], .ok none)
    ∧ exclude_edges (fidLayer [1,2]) "single" "monoid"
        = (["field " ++ "monoid" ++ " not found"], .ok (some [])) :=
  ⟨exclude_edges_validation_failures.1 (fidLayer [1,2]) "biall" "FID"
      (by decide) (by decide),
   exclude_edges_validation_failures.2 (fidLayer [1,2]) "single" "monoid"
      (Or.inr rfl) (by decide)⟩

lemma noTripleRun_parts {last f : Int} {rest : List Int}
    (h : noTripleRun (last :: f :: rest) = true) :
    noTripleRun (f :: rest) = true ∧
      (∀ g r2, rest = g :: r2 → ¬(last = f ∧ f = g)) := by
  cases rest with
  | nil => exact ⟨rfl, fun g r2 hr => by cases hr⟩
  | cons g r2 =>
    have h2 : (!(last == f && f == g) && noTripleRun (f :: g :: r2)) = true := h
    rw [Bool.and_eq_true] at h2
    obtain ⟨hA, hB⟩ := h2
    refine ⟨hB, ?_⟩
    intro g' r2' hr hconj
    cases hr
    obtain ⟨he1, he2⟩ := hconj
    simp [he1, he2] at hA

lemma scanSingle_total_aux : ∀ (l : List Int) (last : Int) (stack : List Int),
    noTripleRun (last :: l) = true →
    (∀ f l2, l = f :: l2 → last ≠ 0 → last = f → stack ≠ []) →
    ∃ out, scanSingle last stack l = .ok out := by
  intro l
  induction l with
  | nil => intro last stack _ _; exact ⟨stack.reverse, rfl⟩
  | cons f rest ih =>
    intro last stack htr hsafe
    obtain ⟨htail, hpair⟩ := noTripleRun_parts htr
    by_cases h0 : last = 0
    · rw [show scanSingle last stack (f :: rest) = scanSingle f (f :: stack) rest
          from by simp [scanSingle, h0]]
      exact ih f (f :: stack) htail (fun _ _ _ _ _ => List.cons_ne_nil f stack)
    · by_cases hf : last = f
      · have hnn : stack ≠ [] := hsafe f rest rfl h0 hf
        obtain ⟨x, s, rfl⟩ : ∃ x s, stack = x :: s := by
          cases stack with
          | nil => exact absurd rfl hnn
          | cons x s => exact ⟨x, s, rfl⟩
        have hf0 : ¬(f = 0) := fun e => h0 (hf.trans e)
        rw [show scanSingle last (x :: s) (f :: rest) = scanSingle f s rest
            from by simp [scanSingle, h0, hf, hf0]]
        refine ih f s htail ?_
        intro g r2 hr _ hfg
        exact absurd ⟨hf, hfg⟩ (hpair g r2 hr)
      · rw [show scanSingle last stack (f :: rest) = scanSingle f (f :: stack) rest
            from by simp [scanSingle, h0, hf]]
        exact ih f (f :: stack) htail (fun _ _ _ _ _ => List.cons_ne_nil f stack)

/-- C10: rule "single" is partial: on the FID sequence `[1,1,1]` the third
row takes the pop branch with the stack already empty, so the scan raises
`IndexError` instead of returning; and the scan does return normally on
every sequence in which no FID occurs three times consecutively (every
maximal run of equal FIDs has length at most two). -/
theorem single_rule_partial_pop_on_empty :
    (exclude_edges (fidLayer [1,1,1]) "single" "FID").2
      = .error "IndexError: pop from empty list"
    ∧ (∀ fids : List Int, noTripleRun fids = true →
        ∃ out, (exclude_edges (fidLayer fids) "single" "FID").2 = .ok (some out)) := by
  constructor
  · decide
  · intro fids h
    have hex : ∃ out, scanSingle 0 [] fids = .ok out := by
      cases fids with
      | nil => exact ⟨[], rfl⟩
      | cons f rest =>
        rw [show scanSingle 0 [] (f :: rest) = scanSingle f [f] rest
            from by simp [scanSingle]]
        exact scanSingle_total_aux rest f [f] h (fun _ _ _ _ _ => List.cons_ne_nil f [])
    obtain ⟨out, hout⟩ := hex
    refine ⟨out, ?_⟩
    rw [exclude_edges_single_fidLayer, hout]
    rfl

/-- C10 witness: the no-triple-run sequence `[1,1,2,2]` scans to a normal
result. -/
theorem single_rule_partial_pop_on_empty_witness :
    ∃ out, (exclude_edges (fidLayer [1,1,2,2]) "single" "FID").2 = .ok (some out) :=
  single_rule_partial_pop_on_empty.2 [1,1,2,2] (by decide)

lemma getD_of_lt {l : List Int} {i : Nat} (h : i < l.length) : l.getD i 0 = l[i] := by
  simp [List.getD_eq_getElem?_getD, List.getElem?_eq_getElem h]

lemma getD_mem {l : List Int} {i : Nat} (h : i < l.length) : l.getD i 0 ∈ l := by
  rw [getD_of_lt h]
  exact List.getElem_mem h

lemma mem_getD {l : List Int} {x : Int} (h : x ∈ l) :
    ∃ i, ∃ _ : i < l.length, l.getD i 0 = x := by
  obtain ⟨i, hi, he⟩ := List.mem_iff_getElem.mp h
  exact ⟨i, hi, by rw [getD_of_lt hi]; exact he⟩

lemma sorted_getD_lt {l : List Int} (hs : l.Sorted (· < ·)) {i j : Nat}
    (hij : i < j) (hj : j < l.length) : l.getD i 0 < l.getD j 0 := by
  have hi : i < l.length := lt_trans hij hj
  rw [getD_of_lt hi, getD_of_lt hj]
  exact List.pairwise_iff_getElem.mp hs i j hi hj hij

lemma remainScan_filter (excl : List Int) (hex : excl.Sorted (· < ·)) :
    ∀ (fids : List Int) (s : Nat), fids.Sorted (· < ·) → s < excl.length →
      ((∀ i, i < excl.length →
          (i < s → ∀ f ∈ fids, excl.getD i 0 < f) ∧ (s ≤ i → excl.getD i 0 ∈ fids))
        ∨ (s + 1 = excl.length ∧ ∀ i, i < excl.length → ∀ f ∈ fids, excl.getD i 0 < f)) →
      remainScan excl fids s = fids.filter (fun f => decide (f ∉ excl)) := by
  intro fids
  induction fids with
  | nil => intro s _ _ _; rfl
  | cons fid rest ih =>
    intro s hs hslen hinv
    have hfr : ∀ f ∈ rest, fid < f := (List.sorted_cons.mp hs).1
    have hrs : rest.Sorted (· < ·) := (List.sorted_cons.mp hs).2
    rw [show remainScan excl (fid :: rest) s
        = (if fid < excl.getD s 0 then fid :: remainScan excl rest s
           else if fid = excl.getD s 0 then
             remainScan excl rest (if s + 1 = excl.length then s else s + 1)
           else fid :: remainScan excl rest s) from rfl]
    rcases hinv with hmain | ⟨hsat, hall⟩
    · have hes : excl.getD s 0 ∈ fid :: rest := (hmain s hslen).2 (Nat.le_refl s)
      rcases lt_trichotomy fid (excl.getD s 0) with hlt | heq | hgt
      · -- current FID below the cursor value: kept, and not excluded
        rw [if_pos hlt]
        have hnotmem : fid ∉ excl := by
          intro hm
          obtain ⟨i, hi, hie⟩ := mem_getD hm
          rcases Nat.lt_or_ge i s with h1 | h2
          · have hx := (hmain i hi).1 h1 fid (List.mem_cons_self _ _)
            rw [hie] at hx
            exact lt_irrefl _ hx
          · rcases Nat.eq_or_lt_of_le h2 with h2e | h2l
            · rw [h2e, hie] at hlt
              exact lt_irrefl _ hlt
            · have hx := sorted_getD_lt hex h2l hi
              rw [hie] at hx
              exact lt_irrefl _ (lt_trans hlt hx)
        rw [List.filter_cons, if_pos (by simpa using hnotmem)]
        congr 1
        apply ih s hrs hslen
        left
        intro i hi
        refine ⟨fun h1 f hf => (hmain i hi).1 h1 f (List.mem_cons_of_mem _ hf), fun h2 => ?_⟩
        have hmem := (hmain i hi).2 h2
        have hgt2 : fid < excl.getD i 0 := by
          rcases Nat.eq_or_lt_of_le h2 with h2e | h2l
          · rw [← h2e]; exact hlt
          · exact lt_trans hlt (sorted_getD_lt hex h2l hi)
        rcases List.mem_cons.mp hmem with he | he
        · rw [he] at hgt2
          exact absurd hgt2 (lt_irrefl _)
        · exact he
      · -- current FID equals the cursor value: dropped, cursor advances
        rw [if_neg (by rw [heq]; exact lt_irrefl _), if_pos heq]
        have hmem : fid ∈ excl := by rw [heq]; exact getD_mem hslen
        have hfil : List.filter (fun f => decide (f ∉ excl)) (fid :: rest)
            = List.filter (fun f => decide (f ∉ excl)) rest := by
          rw [List.filter_cons, if_neg (by simpa using hmem)]
        rw [hfil]
        by_cases hlast : s + 1 = excl.length
        · rw [if_pos hlast]
          apply ih s hrs hslen
          right
          refine ⟨hlast, fun i hi f hf => ?_⟩
          have hile : i ≤ s := by omega
          rcases Nat.eq_or_lt_of_le hile with hie | hil
          · rw [hie, ← heq]
            exact hfr f hf
          · exact (hmain i hi).1 hil f (List.mem_cons_of_mem _ hf)
        · rw [if_neg hlast]
          apply ih (s + 1) hrs (by omega)
          left
          intro i hi
          constructor
          · intro h1 f hf
            have : i < s ∨ i = s := by omega
            rcases this with hil | hie
            · exact (hmain i hi).1 hil f (List.mem_cons_of_mem _ hf)
            · rw [hie, ← heq]
              exact hfr f hf
          · intro h2
            have hmem2 := (hmain i hi).2 (by omega)
            have hgt2 : fid < excl.getD i 0 := by
              rw [heq]
              exact sorted_getD_lt hex (by omega) hi
            rcases List.mem_cons.mp hmem2 with he | he
            · rw [he] at hgt2
              exact absurd hgt2 (lt_irrefl _)
            · exact he
      · -- current FID above the cursor value: impossible while the cursor
        -- still points at an exclusion that occurs among the remaining FIDs
        exfalso
        rcases List.mem_cons.mp hes with he | he
        · rw [he] at hgt
          exact lt_irrefl _ hgt
        · exact lt_irrefl _ (lt_trans (hfr _ he) hgt)
    · -- cursor saturated: every exclusion value is below every remaining FID
      have hef : excl.getD s 0 < fid := hall s hslen fid (List.mem_cons_self _ _)
      rw [if_neg (not_lt_of_gt hef), if_neg (fun e => lt_irrefl _ (e ▸ hef))]
      have hnotmem : fid ∉ excl := by
        intro hm
        obtain ⟨i, hi, hie⟩ := mem_getD hm
        have hx := hall i hi fid (List.mem_cons_self _ _)
        rw [hie] at hx
        exact lt_irrefl _ hx
      rw [List.filter_cons, if_pos (by simpa using hnotmem)]
      congr 1
      apply ih s hrs hslen
      right
      exact ⟨hsat, fun i hi f hf => hall i hi f (List.mem_cons_of_mem _ hf)⟩

lemma intRange_sorted (N : Nat) : (intRange N).Sorted (· < ·) := by
  have h : List.Pairwise (· < ·) (List.map (fun n : Nat => (n : Int)) (List.range N)) := by
    rw [List.pairwise_map]
    exact (List.pairwise_lt_range N).imp (fun hab => by exact_mod_cast hab)
  exact h

/-- C3: on a layer whose FID attribute enumerates `0..N-1` in increasing
iteration order and a sorted duplicate-free exclusion sequence whose
members all occur among the FIDs, the merge-scan of `calc_remained_road`
keeps exactly the FIDs not in the exclusion sequence, in original order
(the cursor saturating at the last exclusion position once exhausted);
on FIDs `[0,1,2,3,4,5]` with exclusion `[2,4]` the kept list is
`[0,1,3,5]`. -/
theorem calc_remained_road_keeps_nonexcluded :
    (∀ (N : Nat) (excl : List Int) (path out : String) (w : Bool),
       excl.Sorted (· < ·) → (∀ e ∈ excl, e ∈ intRange N) →
       keptFids (intRange N) (calc_remained_road path (intRange N) excl w out)
         = (intRange N).filter (fun f => decide (f ∉ excl)))
    ∧ (calc_remained_road "splited.shp" (intRange 6) [2,4] true
        "splited_selected.shp").selected = some [0,1,3,5] := by
  constructor
  · intro N excl path out w hex hmem
    cases excl with
    | nil => simp [calc_remained_road, keptFids]
    | cons e0 et =>
      have hscan := remainScan_filter (e0 :: et) hex (intRange N) 0 (intRange_sorted N)
        (by simp) (Or.inl (fun i hi =>
          ⟨fun h1 _ _ => absurd h1 (Nat.not_lt_zero i), fun _ => hmem _ (getD_mem hi)⟩))
      rw [show keptFids (intRange N) (calc_remained_road path (intRange N) (e0 :: et) w out)
          = remainScan (e0 :: et) (intRange N) 0 from by
        cases w <;> simp [calc_remained_road, keptFids]]
      exact hscan
  · decide

/-- C3 witness: the theorem applied at `N = 6`, exclusion `[2,4]`. -/
theorem calc_remained_road_keeps_nonexcluded_witness :
    keptFids (intRange 6) (calc_remained_road "a.shp" (intRange 6) [2,4] true "b.shp")
      = (intRange 6).filter (fun f => decide (f ∉ ([2,4] : List Int))) :=
  calc_remained_road_keeps_nonexcluded.1 6 [2,4] "a.shp" "b.shp" true
    (by decide) (by decide)

/-- C4: the exclusion sequence built by `post_process_road` is the sorted
duplicate-free union of the rule-"bial" output and the rule-"single"
output; for every pair of rule outputs it is strictly increasing (hence
duplicate-free) and contains exactly the members of either output, and
for bial output `{3,7}` and single output `{2,4}` it is `[2,3,4,7]`. -/
theorem exclusion_union_sorted_dup_free :
    (∀ a b : List Int, (exclude_union a b).Sorted (· < ·)
       ∧ ∀ x : Int, x ∈ exclude_union a b ↔ x ∈ a ∨ x ∈ b)
    ∧ exclude_union [3,7] [2,4] = [2,3,4,7]
    ∧ (∀ (pl el : VectorLayer) (bl sl : List Int),
         (exclude_edges pl "bial" "FID").2 = .ok (some bl) →
         (exclude_edges el "single" "FID").2 = .ok (some sl) →
         post_process_exclude_list pl el = .ok (exclude_union bl sl)) := by
  refine ⟨fun a b => ⟨?_, fun x => ?_⟩, by decide, fun pl el bl sl h1 h2 => ?_⟩
  · have hsle : (exclude_union a b).Sorted (· ≤ ·) := List.sorted_insertionSort _ _
    have hnd : (exclude_union a b).Nodup :=
      (List.Perm.nodup_iff (List.perm_insertionSort _ _)).mpr (List.nodup_dedup _)
    exact hsle.lt_of_le hnd
  · unfold exclude_union
    rw [List.mem_insertionSort]
    simp
  · unfold post_process_exclude_list
    rw [h1, h2]

/-- C4 witness: the composed exclusion-list construction on the layers
from the spec's worked examples. -/
theorem exclusion_union_sorted_dup_free_witness :
    post_process_exclude_list (fidLayer [3,3,5,7,7,7]) (fidLayer [1,1,2,3,3,4])
      = .ok (exclude_union [3,7,7] [2,4]) :=
  exclusion_union_sorted_dup_free.2.2 (fidLayer [3,3,5,7,7,7]) (fidLayer [1,1,2,3,3,4])
    [3,7,7] [2,4] (by decide) (by decide)

lemma field_index_some_lt (name : String) :
    ∀ (l : List String) (i : Nat), field_index l name = some i → i < l.length := by
  intro l
  induction l with
  | nil => intro i h; cases h
  | cons f rest ih =>
    intro i h
    by_cases he : f = name
    · simp [field_index, he] at h
      simp only [List.length_cons]
      omega
    · simp only [field_index, if_neg he] at h
      rcases Option.map_eq_some'.mp h with ⟨j, hj, hji⟩
      have := ih j hj
      simp only [List.length_cons]
      omega

lemma field_index_append_self (name : String) :
    ∀ l : List String, name ∉ l → field_index (l ++ [name]) name = some l.length := by
  intro l
  induction l with
  | nil => intro _; simp [field_index]
  | cons f rest ih =>
    intro h
    have h1 : ¬(f = name) := fun e => h (e ▸ List.mem_cons_self f rest)
    have h2 : name ∉ rest := fun m => h (List.mem_cons_of_mem f m)
    simp [field_index, h1, ih h2]

lemma field_index_mem (name : String) :
    ∀ l : List String, name ∈ l → ∃ i, field_index l name = some i := by
  intro l
  induction l with
  | nil => intro h; cases h
  | cons f rest ih =>
    intro h
    by_cases he : f = name
    · exact ⟨0, by simp [field_index, he]⟩
    · have hr : name ∈ rest := by
        rcases List.mem_cons.mp h with h' | h'
        · exact absurd h'.symm he
        · exact h'
      obtain ⟨i, hi⟩ := ih hr
      exact ⟨i + 1, by simp [field_index, he, hi]⟩

lemma reindex_apply_stamps (l1 : VectorLayer) (name : String)
    (hwf : ∀ f ∈ l1.feats, f.attrs.length = l1.fields.length)
    (hm : name ∈ l1.fields) :
    ∀ f ∈ (reindex_apply l1 name).feats, getAttr (reindex_apply l1 name) f name = some f.fid := by
  obtain ⟨i, hi⟩ := field_index_mem name l1.fields hm
  have hilt : i < l1.fields.length := field_index_some_lt name l1.fields i hi
  have hra : reindex_apply l1 name
      = { l1 with feats := l1.feats.map (fun f => { f with attrs := f.attrs.set i f.fid }) } := by
    unfold reindex_apply
    rw [hi]
  intro f hf
  rw [hra] at hf
  obtain ⟨f0, hf0, rfl⟩ := List.mem_map.mp hf
  rw [hra]
  show (field_index l1.fields name).bind (fun j => (f0.attrs.set i f0.fid)[j]?) = some f0.fid
  rw [hi]
  show (f0.attrs.set i f0.fid)[i]? = some f0.fid
  exact List.getElem?_set_self (by rw [hwf f0 hf0]; exact hilt)

/-- C7: after a successful split, `split_lines` stamps every feature of
the output layer with `monoid` equal to that feature's own feature id of
the same load session (creating the integer field when absent); and when
the underlying split operation fails, `split_lines` returns the
empty-path sentinel and reindexes nothing. -/
theorem split_lines_stamps_monoid :
    (∀ (l : VectorLayer) (p : String), l.valid = true →
       (∀ f ∈ l.feats, f.attrs.length = l.fields.length) →
       ∀ lf, (split_lines (some l) p).2 = some lf →
         ∀ f ∈ lf.feats, getAttr lf f "monoid" = some f.fid)
    ∧ (∀ p : String, split_lines none p = ("", none)) := by
  refine ⟨?_, fun p => rfl⟩
  intro l p hval hwf lf hlf
  have hvne : ¬(l.valid = false) := by rw [hval]; simp
  have hre : reindex_feature l "monoid" = some (reindex_apply
      (if "monoid" ∈ l.fields then l
       else { l with
              fields := l.fields ++ ["monoid"]
              feats := l.feats.map (fun f => { f with attrs := f.attrs ++ [0] }) })
      "monoid") := by
    unfold reindex_feature
    rw [if_neg hvne]
  have hlf2 : lf = reindex_apply
      (if "monoid" ∈ l.fields then l
       else { l with
              fields := l.fields ++ ["monoid"]
              feats := l.feats.map (fun f => { f with attrs := f.attrs ++ [0] }) })
      "monoid" := by
    rw [show (split_lines (some l) p).2 = some ((reindex_feature l "monoid").getD l)
        from rfl] at hlf
    rw [hre] at hlf
    simpa using hlf.symm
  subst hlf2
  by_cases hm : "monoid" ∈ l.fields
  · rw [if_pos hm]
    exact reindex_apply_stamps l "monoid" hwf hm
  · rw [if_neg hm]
    apply reindex_apply_stamps
    · intro f hf
      obtain ⟨f0, hf0, rfl⟩ := List.mem_map.mp hf
      show (f0.attrs ++ [0]).length = (l.fields ++ ["monoid"]).length
      simp [hwf f0 hf0]
    · show "monoid" ∈ l.fields ++ ["monoid"]
      simp

/-- C7 witness: a concrete valid two-feature layer with an existing
`monoid` field holding stale values 99 and 3 is restamped to the
features' own ids 5 and 7. -/
theorem split_lines_stamps_monoid_witness :
    getAttr ⟨true, ["monoid"], [⟨5, [5]⟩, ⟨7, [7]⟩]⟩ ⟨5, [5]⟩ "monoid" = some 5 :=
  split_lines_stamps_monoid.1 ⟨true, ["monoid"], [⟨5, [99]⟩, ⟨7, [3]⟩]⟩ "roads.shp" rfl
    (by decide) ⟨true, ["monoid"], [⟨5, [5]⟩, ⟨7, [7]⟩]⟩ (by decide) ⟨5, [5]⟩ (by decide)
